import Mathlib

/-!
Verification of the ExamDrop feature-extraction pipeline of
`moldel/Layers/ExamDrop/ExamDropExtractor.py`.

The development shallowly embeds the extractor: machine floats become
rationals, numpy arrays become lists of rows, Python sets become lists
(only membership and cardinality are used), and the external
collaborators — the sklearn `KBinsDiscretizer`-based entropy, the fitted
sklearn transforms (`KBinsDiscretizer`, `SelectFpr`, `PCA`) and the
season-data layer (`Data.ExamData`) — are supplied as oracle parameters
or modelled from the spec, as documented on each definition.
-/

namespace ExamDrop

/-! ### The priority queue of `get_num_bins`

Python's `queue.PriorityQueue` is a binary min-heap over `(gain, index)`
tuples compared lexicographically.  Since every entry carries a distinct
feature index, the heap's observable behaviour (each `get` returns the
lexicographically least entry present) coincides with keeping the entries
as a list sorted by the lexicographic order and popping the head.  The
queue is modelled that way. -/

/-- Lexicographic comparison of `(gain, featureIndex)` tuples, exactly the
Python tuple order used by `PriorityQueue`: smaller gain first, ties broken
by the smaller feature index. -/
def qle (a b : ℚ × Nat) : Prop :=
  a.1 < b.1 ∨ (a.1 = b.1 ∧ a.2 ≤ b.2)

instance : DecidableRel qle := fun a b =>
  inferInstanceAs (Decidable (a.1 < b.1 ∨ (a.1 = b.1 ∧ a.2 ≤ b.2)))

instance : IsTotal (ℚ × Nat) qle where
  total a b := by
    rcases lt_trichotomy a.1 b.1 with h | h | h
    · exact Or.inl (Or.inl h)
    · rcases Nat.le_total a.2 b.2 with h2 | h2
      · exact Or.inl (Or.inr ⟨h, h2⟩)
      · exact Or.inr (Or.inr ⟨h.symm, h2⟩)
    · exact Or.inr (Or.inl h)

instance : IsTrans (ℚ × Nat) qle where
  trans a b c hab hbc := by
    rcases hab with hab | ⟨hab, hab2⟩
    · rcases hbc with hbc | ⟨hbc, _⟩
      · exact Or.inl (hab.trans hbc)
      · exact Or.inl (hbc ▸ hab)
    · rcases hbc with hbc | ⟨hbc, hbc2⟩
      · exact Or.inl (hab ▸ hbc)
      · exact Or.inr ⟨hab.trans hbc, hab2.trans hbc2⟩

/-- `options.put(e)`: ordered insertion into the sorted-list model of the
priority queue. -/
def qInsert (e : ℚ × Nat) (q : List (ℚ × Nat)) : List (ℚ × Nat) :=
  List.orderedInsert qle e q

/-- The sortedness invariant of the queue model: the head of a `QSorted`
queue is what the heap's `get` would return. -/
def QSorted (q : List (ℚ × Nat)) : Prop := List.Sorted qle q

/-! ### The bin allocator `get_num_bins` -/

/-- Number of features: the length of `train_input[0]`. -/
def numFeatures (m : List (List ℚ)) : Nat := (m.headD []).length

/-- Column `i` of the train matrix (`train_input.T[i]`, `train_input[:, i]`);
rows are rectangular in the source, so the default is never consulted for
indices below `numFeatures`. -/
def matrixColumn (m : List (List ℚ)) (i : Nat) : List ℚ :=
  m.map (fun r => r.getD i 0)

/-- `len(set(column))`: the number of distinct raw values of one feature. -/
def distinctCount (l : List ℚ) : Nat := l.dedup.length

/-- `max_bins = [len(set(column)) for column in train_input.T]`. -/
def max_bins_of (m : List (List ℚ)) : List Nat :=
  (List.range (numFeatures m)).map (fun i => distinctCount (matrixColumn m i))

/-- `entropies = [__entropy(column, 2) for column in train_input.T]`, with the
entropy of discretizing a column into a given number of bins supplied by the
oracle `H` (its value depends on the external sklearn `KBinsDiscretizer`
with the kmeans strategy, which lives outside the repository). -/
def entropies_of (H : List ℚ → Nat → ℚ) (m : List (List ℚ)) : List ℚ :=
  (List.range (numFeatures m)).map (fun i => H (matrixColumn m i) 2)

/-- One iteration of the queue-filling loop `for i, data in
enumerate(train_input.T)`: for a feature with more than 2 distinct values,
push the negated entropy difference between a 3-bin and the 2-bin
discretization, keyed by the feature index. -/
def initPush (H : List ℚ → Nat → ℚ) (m : List (List ℚ)) (q : List (ℚ × Nat)) (i : Nat) :
    List (ℚ × Nat) :=
  if 2 < (max_bins_of m).getD i 0 then
    qInsert (-(H (matrixColumn m i) 3 - (entropies_of H m).getD i 0), i) q
  else q

/-- The initial filling of the priority queue over all feature indices. -/
def initQueue (H : List ℚ → Nat → ℚ) (m : List (List ℚ)) : List (ℚ × Nat) :=
  (List.range (numFeatures m)).foldl (initPush H m) []

/-- Loop state of `get_num_bins`: the per-feature bin counts `num_bins`, the
cached per-feature entropies and the priority queue `options`. -/
structure BinState where
  numBins : List Nat
  entropies : List ℚ
  queue : List (ℚ × Nat)
deriving DecidableEq

/-- The state of `get_num_bins` just before its `for _ in range(max_splits)`
loop: every feature starts at 2 bins. -/
def binInit (H : List ℚ → Nat → ℚ) (m : List (List ℚ)) : BinState :=
  { numBins := List.replicate (numFeatures m) 2
    entropies := entropies_of H m
    queue := initQueue H m }

/-- One iteration of the `for _ in range(max_splits)` loop of `get_num_bins`:
pop the least `(gain, index)` entry, give that feature one extra bin, update
its cached entropy (`entropies[i] - entropy` where `entropy` is the popped
negated gain), and re-push the next marginal gain unless the feature reached
its maximum number of bins.  An empty queue leaves the state unchanged,
embedding the early `break`. -/
def binStep (H : List ℚ → Nat → ℚ) (m : List (List ℚ)) (st : BinState) : BinState :=
  match st.queue with
  | [] => st
  | (gain, i) :: rest =>
    let nb := st.numBins.set i (st.numBins.getD i 0 + 1)
    let en := st.entropies.set i (st.entropies.getD i 0 - gain)
    if nb.getD i 0 ≠ (max_bins_of m).getD i 0 then
      { numBins := nb, entropies := en
        queue := qInsert (-(H (matrixColumn m i) (nb.getD i 0 + 1) - en.getD i 0), i) rest }
    else
      { numBins := nb, entropies := en, queue := rest }

/-- `ExamDropExtractor.get_num_bins(train_input, max_splits)`.  `max_splits`
is a Python int, and `range` of a negative argument is empty, hence the
`Int.toNat` iteration count. -/
def get_num_bins (H : List ℚ → Nat → ℚ) (m : List (List ℚ)) (maxSplits : Int) : List Nat :=
  ((binStep H m)^[maxSplits.toNat] (binInit H m)).numBins

/-! ### The season data expansion `__get_season_data` -/

/-- Modelled from the spec: one raw answer record of the external Raw Sample
Source (`Data.ExamData`, not among the analysed sources).  `player` is the
acting participant, `episode` the exam episode of the answer, `question`
the question asked and `answer` the set of participants named in the
answer.  Participants and episodes are identified by naturals. -/
structure Answer where
  player : Nat
  episode : Nat
  question : Nat
  answer : List Nat
deriving DecidableEq

/-- Modelled from the spec: the per-season store behind
`EXAM_DATA[season_num]`.  `answers` lists every raw answer record of the
season in order, `drops` the recorded execution-drop events as
(participant, episode) pairs, and `episodePlayers` the participants present
in each exam episode. -/
structure SeasonData where
  answers : List Answer
  drops : List (Nat × Nat)
  episodePlayers : Nat → List Nat

/-- Modelled from the spec: the key set of
`season.get_drop_mapping(DropType.EXECUTION_DROP, max_episode)` — the
participants with an execution drop visible at the cutoff. -/
def dropKeys (s : SeasonData) (maxEp : Nat) : List Nat :=
  (s.drops.filter (fun d => decide (d.2 ≤ maxEp))).map Prod.fst

/-- Modelled from the spec: the drop mapping entry `drop_players[p]` — the
execution-drop episodes of participant `p` visible at the cutoff. -/
def dropEpisodes (s : SeasonData) (maxEp : Nat) (p : Nat) : List Nat :=
  (s.drops.filter (fun d => decide (d.1 = p ∧ d.2 ≤ maxEp))).map Prod.snd

/-- Modelled from the spec:
`season.get_all_answers(players, max_episode)` — the answer records of the
given participants in episodes up to the cutoff, in season order. -/
def get_all_answers (s : SeasonData) (ps : List Nat) (maxEp : Nat) : List Answer :=
  s.answers.filter (fun a => decide (a.player ∈ ps ∧ a.episode ≤ maxEp))

/-- Modelled from the spec:
`episode.get_all_answers({player}, sys.maxsize)` — the answers of one
participant within one episode, across all visibility (the `sys.maxsize`
cutoff excludes nothing). -/
def episode_answers (s : SeasonData) (ep p : Nat) : List Answer :=
  s.answers.filter (fun a => decide (a.player = p ∧ a.episode = ep))

/-- The `selected_player` slot of a `TrainSample`: a concrete participant in
train mode, a boolean marker in predict mode. -/
inductive Selected where
  | player (p : Nat)
  | flag (b : Bool)
deriving DecidableEq

/-- `TrainSample` of `Layers.ExamDrop.ExamDropEncoder`, fields in the
construction order used by `ExamDropExtractor.__get_season_data`. -/
structure TrainSample where
  player : Nat
  season : Nat
  drop_episode : Nat
  exam_episode : Nat
  question : Nat
  answer : List Nat
  selected_player : Selected
deriving DecidableEq

/-- A sample differing from `t` only in its `selected_player` slot; used to
state that expansion copies of one answer agree everywhere else. -/
def withSelected (t : TrainSample) (sel : Selected) : TrainSample :=
  { t with selected_player := sel }

/-- Arbitrary sample, used only as the out-of-range default of `List.getD`
in statements whose index is in range. -/
def dummySample : TrainSample :=
  ⟨0, 0, 0, 0, 0, [], Selected.flag false⟩

/-- Python `min` of a list (`min(drop_episodes)`); the default for the empty
list is never consulted, since the call site guards on nonemptiness. -/
def listMin : List Nat → Nat
  | [] => 0
  | x :: xs => xs.foldl Nat.min x

/-- The body of the `for answer in all_answers` loop of `__get_season_data`:
the samples contributed by one answer record.  An answer is skipped unless
its author has a visible drop episode at or after the exam episode;
otherwise it is replicated once per participant of the exam episode in
train mode, and into a `False` then a `True` marker row in predict mode. -/
def expand_answer (s : SeasonData) (seasonNum maxEp : Nat) (training : Bool)
    (a : Answer) : List TrainSample :=
  let de := (dropEpisodes s maxEp a.player).filter (fun e => decide (a.episode ≤ e))
  if de.isEmpty then []
  else if training then
    (s.episodePlayers a.episode).map (fun q =>
      ⟨a.player, seasonNum, listMin de, a.episode, a.question, a.answer, .player q⟩)
  else
    [⟨a.player, seasonNum, listMin de, a.episode, a.question, a.answer, .flag false⟩,
     ⟨a.player, seasonNum, listMin de, a.episode, a.question, a.answer, .flag true⟩]

/-- `ExamDropExtractor.__get_season_data(season_num, max_episode,
training_data)`, with the season store passed explicitly. -/
def get_season_data (s : SeasonData) (seasonNum maxEp : Nat) (training : Bool) :
    List TrainSample :=
  (get_all_answers s (dropKeys s maxEp) maxEp).flatMap
    (expand_answer s seasonNum maxEp training)

/-- `sys.maxsize` of a 64-bit CPython build, the cutoff used for train data
and inside `__get_train_weights`. -/
def sysMaxsize : Nat := 2 ^ 63 - 1

/-! ### The sample weighter `__get_train_weights` -/

/-- The weight assigned to one sample:
`1 / len(sample.exam_episode.get_all_answers({sample.player}, sys.maxsize))`.
Rationals stand in for IEEE doubles, so the weight identities below are the
exact counterparts of the floating computation. -/
def sample_weight (s : SeasonData) (t : TrainSample) : ℚ :=
  1 / ((episode_answers s t.exam_episode t.player).length : ℚ)

/-- `ExamDropExtractor.__get_train_weights(train_data)`. -/
def get_train_weights (s : SeasonData) (data : List TrainSample) : List ℚ :=
  data.map (sample_weight s)

/-- The total weight carried by the samples of one participant-episode pair
within a sample list. -/
def weightSumPair (s : SeasonData) (data : List TrainSample) (p ep : Nat) : ℚ :=
  ((data.filter (fun t => decide (t.player = p ∧ t.exam_episode = ep))).map
    (sample_weight s)).sum

/-! ### The interaction augmenter `__add_answered_on_feature` -/

/-- The `answered_on` indicator of `__add_answered_on_feature`: `1.0` when
`selected_player` is the boolean `True` (the `isinstance(…, bool)` branch)
or a concrete participant contained in the sample's answer set, else
`0.0`. -/
def answered_on (t : TrainSample) : ℚ :=
  match t.selected_player with
  | .flag b => if b then 1 else 0
  | .player p => if p ∈ t.answer then 1 else 0

/-- `ExamDropExtractor.__add_answered_on_feature(samples, all_features)`:
to every row append the products `answered_on * features` and then the
single `answered_on` column (`zip` truncates to the shorter argument, as in
Python). -/
def add_answered_on_feature (samples : List TrainSample) (m : List (List ℚ)) :
    List (List ℚ) :=
  (samples.zip m).map (fun pr =>
    pr.2 ++ pr.2.map (fun x => answered_on pr.1 * x) ++ [answered_on pr.1])

/-! ### The predict entry point `get_predict_data` -/

/-- The Python exceptions relevant to the analysed entry points:
`attributeError` models the `AttributeError` raised when a private fitted
attribute such as `self.__discretizer` is read before `get_train_data`
created it. -/
inductive PyError where
  | attributeError
deriving DecidableEq

/-- The fitted state `get_train_data` stores on the extractor: the fitted
`KBinsDiscretizer`, `SelectFpr` and `PCA` objects.  They are external
sklearn objects, so their `transform` methods enter the model as oracle
row transformers. -/
structure Fitted where
  discretizer : List ℚ → List ℚ
  anova_f_filter : List ℚ → List ℚ
  pca : List ℚ → List ℚ

/-- The extractor object: the six constructor fields plus the optional
fitted state — `none` until `get_train_data` has completed, mirroring that
the private attributes do not exist on the Python object before the
training assignments run. -/
structure Extractor where
  predict_season : Nat
  predict_episode : Nat
  train_seasons : List Nat
  anova_f_significance : ℚ
  pca_explain : ℚ
  max_splits : Int
  fitted : Option Fitted

/-- `ExamDropExtractor.__init__`: the body only stores its six arguments —
it contains no validation and no statement that can raise — so the result
is `ok` for every configuration. -/
def extractor_init (predict_season predict_episode : Nat) (train_seasons : List Nat)
    (anova_f_significance pca_explain : ℚ) (max_splits : Int) :
    Except PyError Extractor :=
  .ok { predict_season := predict_season, predict_episode := predict_episode,
        train_seasons := train_seasons, anova_f_significance := anova_f_significance,
        pca_explain := pca_explain, max_splits := max_splits, fitted := none }

/-- Modelled from the spec: the external collaborators of the predict path —
the season store `EXAM_DATA` and the per-record feature extractor
`ExamDropEncoder.extract_features` (external, pure). -/
structure DataEnv where
  seasons : Nat → SeasonData
  extract_features : TrainSample → Nat → List ℚ

/-- `PredictSample` of the source module (named tuple). -/
structure PredictSample where
  in_answer : List Nat
  out_answer : List Nat
  in_features : List ℚ
  out_features : List ℚ
  weight : ℚ
deriving DecidableEq

/-- `l[::2]`. -/
def sliceEven {α : Type _} : List α → List α
  | [] => []
  | [x] => [x]
  | x :: _ :: rest => x :: sliceEven rest

/-- `l[1::2]`. -/
def sliceOdd {α : Type _} : List α → List α
  | [] => []
  | _ :: xs => sliceEven xs

/-- Truncating 4-way `zip`, as in Python. -/
def zip4 {α β γ δ : Type _} : List α → List β → List γ → List δ → List (α × β × γ × δ)
  | a :: as, b :: bs, c :: cs, d :: ds => (a, b, c, d) :: zip4 as bs cs ds
  | _, _, _, _ => []

/-- `ExamDropExtractor.get_predict_data(self)`, faithful to source order:
gather the raw season data; return `[]` when it is empty; otherwise read
the fitted transforms (an `AttributeError` — the sequencing error — when
training has not run), apply discretizer → answered-on augmentation →
ANOVA-F filter → PCA, compute the weights of all raw rows, and zip
`predict_data[::2]`, `predict_input[1::2]`, `predict_input[::2]` and the
unsliced `weights` into `PredictSample` values.  The function performs no
assignment, hence returns no changed state. -/
def get_predict_data (env : DataEnv) (ex : Extractor) :
    Except PyError (List PredictSample) :=
  let s := env.seasons ex.predict_season
  let predictData := get_season_data s ex.predict_season ex.predict_episode false
  if predictData.isEmpty then .ok []
  else
    match ex.fitted with
    | none => .error .attributeError
    | some f =>
      let input0 := predictData.map (fun t => env.extract_features t ex.predict_episode)
      let input1 := input0.map f.discretizer
      let input2 := add_answered_on_feature predictData input1
      let input3 := input2.map f.anova_f_filter
      let input4 := input3.map f.pca
      let weights := get_train_weights s predictData
      .ok ((zip4 (sliceEven predictData) (sliceOdd input4) (sliceEven input4) weights).map
        (fun pr =>
          { in_answer := pr.1.answer
            out_answer := (s.episodePlayers pr.1.exam_episode).filter
              (fun q => decide (q ∉ pr.1.answer))
            in_features := pr.2.1
            out_features := pr.2.2.1
            weight := pr.2.2.2 }))

/-! ### Concrete instances used to evaluate the development -/

/-- A concrete entropy oracle. -/
def oracleH : List ℚ → Nat → ℚ := fun _ b => (b : ℚ)

/-- A 4-sample, 2-feature matrix: feature 0 has 4 distinct values, feature 1
has 3. -/
def matrixA : List (List ℚ) := [[0, 5], [1, 6], [2, 7], [3, 7]]

/-- The raw matrix of the end-to-end spec scenario: both features have 2
distinct values. -/
def matrixB : List (List ℚ) := [[0, 0], [0, 1], [1, 0], [1, 1]]

/-- A season with a single answer by participant 0 in episode 1, a drop of
that participant at episode 5 and two participants present in episode 1. -/
def seasonA : SeasonData :=
  ⟨[⟨0, 1, 0, []⟩], [(0, 5)], fun e => if e = 1 then [0, 1] else []⟩

/-- A season where participant 0 answered once and participant 1 answered
twice in episode 1, and both are dropped at episode 2. -/
def seasonB : SeasonData :=
  ⟨[⟨0, 1, 0, []⟩, ⟨1, 1, 0, []⟩, ⟨1, 1, 1, []⟩], [(0, 2), (1, 2)], fun _ => [0, 1]⟩

/-- A season with no raw answer records at all. -/
def seasonEmpty : SeasonData := ⟨[], [], fun _ => []⟩

/-- Environment mapping every season id to `seasonB`, with a trivial feature
extractor (the weight claims do not depend on feature values). -/
def envB : DataEnv := ⟨fun _ => seasonB, fun _ _ => []⟩

/-- Environment with no raw observations for any season. -/
def envEmpty : DataEnv := ⟨fun _ => seasonEmpty, fun _ _ => []⟩

/-- Fitted state whose three transforms are the identity. -/
def fittedId : Fitted := ⟨id, id, id⟩

/-- Extractor for season 22 with cutoff 2, already trained. -/
def extractorB : Extractor := ⟨22, 2, [], 0, 0, 0, some fittedId⟩

/-- Extractor for season 22 with cutoff 2, before any training call. -/
def extractorNoFitB : Extractor := ⟨22, 2, [], 1 / 100, 95 / 100, 5, none⟩

/-- A train sample whose selected participant appears in its answer set. -/
def sampleC : TrainSample := ⟨0, 22, 2, 1, 0, [1], Selected.player 1⟩

/-- A 2-feature row. -/
def rowC : List ℚ := [2, 3]

/-! ### List helper lemmas -/

theorem getD_set_self {α : Type _} (l : List α) (i : Nat) (v d : α) (h : i < l.length) :
    (l.set i v).getD i d = v := by
  rw [List.getD_eq_getElem _ _ (by simpa using h)]
  simp [h]

theorem getD_set_ne {α : Type _} (l : List α) {i j : Nat} (v d : α) (h : i ≠ j) :
    (l.set i v).getD j d = l.getD j d := by
  rcases Nat.lt_or_ge j l.length with hj | hj
  · rw [List.getD_eq_getElem _ _ (by simpa using hj), List.getD_eq_getElem _ _ hj]
    exact List.getElem_set_ne h _
  · rw [List.getD_eq_default _ _ (by simpa using hj), List.getD_eq_default _ _ hj]

theorem getD_range_map {α : Type _} (f : Nat → α) {W i : Nat} (h : i < W) (d : α) :
    ((List.range W).map f).getD i d = f i := by
  rw [List.getD_eq_getElem _ _ (by simpa using h)]
  simp [h]

theorem getD_replicate_lt {α : Type _} {n i : Nat} (a d : α) (h : i < n) :
    (List.replicate n a).getD i d = a := by
  rw [List.getD_eq_getElem _ _ (by simpa using h)]
  simp

theorem two_mul_length_le_sum {l : List Nat} (h : ∀ x ∈ l, 2 ≤ x) :
    2 * l.length ≤ l.sum := by
  induction l with
  | nil => simp
  | cons x xs ih =>
    have hx := h x (List.mem_cons_self x xs)
    have hxs := ih (fun y hy => h y (List.mem_cons_of_mem _ hy))
    simp only [List.length_cons, List.sum_cons]
    omega

/-! ### Queue model lemmas -/

theorem mem_qInsert {e a : ℚ × Nat} {q : List (ℚ × Nat)} :
    e ∈ qInsert a q ↔ e = a ∨ e ∈ q :=
  List.mem_orderedInsert qle

theorem qInsert_perm (a : ℚ × Nat) (q : List (ℚ × Nat)) :
    List.Perm (qInsert a q) (a :: q) :=
  List.perm_orderedInsert qle a q

theorem QSorted.qInsert {q : List (ℚ × Nat)} (h : QSorted q) (a : ℚ × Nat) :
    QSorted (ExamDrop.qInsert a q) :=
  List.Sorted.orderedInsert a q h

theorem mem_foldl_initPush (H : List ℚ → Nat → ℚ) (m : List (List ℚ)) (l : List Nat) :
    ∀ (q₀ : List (ℚ × Nat)) (e : ℚ × Nat),
      e ∈ l.foldl (initPush H m) q₀ ↔
        e ∈ q₀ ∨ ∃ i ∈ l, 2 < (max_bins_of m).getD i 0 ∧
          e = (-(H (matrixColumn m i) 3 - (entropies_of H m).getD i 0), i) := by
  induction l with
  | nil => intro q₀ e; simp
  | cons i l ih =>
    intro q₀ e
    rw [List.foldl_cons, ih]
    unfold initPush
    split
    case isTrue hc =>
      rw [mem_qInsert]
      constructor
      · rintro ((rfl | he) | ⟨j, hj, hcj, rfl⟩)
        · exact Or.inr ⟨i, List.mem_cons_self i l, hc, rfl⟩
        · exact Or.inl he
        · exact Or.inr ⟨j, List.mem_cons_of_mem _ hj, hcj, rfl⟩
      · rintro (he | ⟨j, hj, hcj, rfl⟩)
        · exact Or.inl (Or.inr he)
        · rcases List.mem_cons.mp hj with rfl | hj
          · exact Or.inl (Or.inl rfl)
          · exact Or.inr ⟨j, hj, hcj, rfl⟩
    case isFalse hc =>
      constructor
      · rintro (he | ⟨j, hj, hcj, rfl⟩)
        · exact Or.inl he
        · exact Or.inr ⟨j, List.mem_cons_of_mem _ hj, hcj, rfl⟩
      · rintro (he | ⟨j, hj, hcj, rfl⟩)
        · exact Or.inl he
        · rcases List.mem_cons.mp hj with rfl | hj
          · exact absurd hcj hc
          · exact Or.inr ⟨j, hj, hcj, rfl⟩

theorem sorted_foldl_initPush (H : List ℚ → Nat → ℚ) (m : List (List ℚ)) (l : List Nat) :
    ∀ q₀ : List (ℚ × Nat), QSorted q₀ → QSorted (l.foldl (initPush H m) q₀) := by
  induction l with
  | nil => intro q₀ h; simpa using h
  | cons i l ih =>
    intro q₀ h
    rw [List.foldl_cons]
    apply ih
    unfold initPush
    split
    · exact h.qInsert _
    · exact h

theorem nodup_foldl_initPush (H : List ℚ → Nat → ℚ) (m : List (List ℚ)) (l : List Nat) :
    ∀ q₀ : List (ℚ × Nat), l.Nodup → (q₀.map Prod.snd).Nodup →
      (∀ e ∈ q₀, e.2 ∉ l) → ((l.foldl (initPush H m) q₀).map Prod.snd).Nodup := by
  induction l with
  | nil => intro q₀ _ h _; simpa using h
  | cons i l ih =>
    intro q₀ hl hq hdisj
    have hl' := List.nodup_cons.mp hl
    rw [List.foldl_cons]
    apply ih _ hl'.2
    · unfold initPush
      split
      · have hperm := (qInsert_perm
          (-(H (matrixColumn m i) 3 - (entropies_of H m).getD i 0), i) q₀).map Prod.snd
        refine hperm.nodup_iff.mpr ?_
        refine List.nodup_cons.mpr ⟨?_, hq⟩
        intro hmem
        rcases List.mem_map.mp hmem with ⟨e, he, hei⟩
        exact hdisj e he (hei ▸ List.mem_cons_self i l)
      · exact hq
    · unfold initPush
      split
      · intro e he
        rcases mem_qInsert.mp he with rfl | he
        · exact hl'.1
        · exact fun hm => hdisj e he (List.mem_cons_of_mem _ hm)
      · exact fun e he hm => hdisj e he (List.mem_cons_of_mem _ hm)

theorem initQueue_sorted (H : List ℚ → Nat → ℚ) (m : List (List ℚ)) :
    QSorted (initQueue H m) :=
  sorted_foldl_initPush H m _ [] (List.sorted_nil)

theorem initQueue_nodup (H : List ℚ → Nat → ℚ) (m : List (List ℚ)) :
    ((initQueue H m).map Prod.snd).Nodup :=
  nodup_foldl_initPush H m _ [] (List.nodup_range _) (by simp) (by simp)

theorem mem_initQueue (H : List ℚ → Nat → ℚ) (m : List (List ℚ)) (e : ℚ × Nat) :
    e ∈ initQueue H m ↔ ∃ i, i < numFeatures m ∧ 2 < (max_bins_of m).getD i 0 ∧
      e = (-(H (matrixColumn m i) 3 - (entropies_of H m).getD i 0), i) := by
  unfold initQueue
  rw [mem_foldl_initPush]
  simp [List.mem_range]

/-! ### The loop invariant of `get_num_bins` -/

/-- Invariant holding in every reachable state of the `get_num_bins` loop:
sizes are fixed, bin counts stay between 2 and the distinct-value cap,
features capped at 2 stay at 2, every queue entry names an unsaturated
feature and carries the negated marginal entropy difference of its next
split, the cached entropies agree with the oracle at the current bin
counts, and the queue holds at most one entry per feature, in sorted
order. -/
structure BinInv (H : List ℚ → Nat → ℚ) (m : List (List ℚ)) (st : BinState) : Prop where
  len_numBins : st.numBins.length = numFeatures m
  len_entropies : st.entropies.length = numFeatures m
  lower : ∀ i, i < numFeatures m → 2 ≤ st.numBins.getD i 0
  upper : ∀ i, i < numFeatures m →
    st.numBins.getD i 0 ≤ max 2 ((max_bins_of m).getD i 0)
  small_fixed : ∀ i, i < numFeatures m →
    (max_bins_of m).getD i 0 ≤ 2 → st.numBins.getD i 0 = 2
  queue_lt : ∀ e ∈ st.queue, e.2 < numFeatures m ∧
    st.numBins.getD e.2 0 < (max_bins_of m).getD e.2 0
  queue_gain : ∀ e ∈ st.queue,
    e.1 = -(H (matrixColumn m e.2) (st.numBins.getD e.2 0 + 1) - st.entropies.getD e.2 0)
  entropy_coh : ∀ i, i < numFeatures m →
    st.entropies.getD i 0 = H (matrixColumn m i) (st.numBins.getD i 0)
  queue_nodup : (st.queue.map Prod.snd).Nodup
  queue_sorted : QSorted st.queue

theorem binInv_init (H : List ℚ → Nat → ℚ) (m : List (List ℚ)) :
    BinInv H m (binInit H m) := by
  constructor
  · simp [binInit]
  · simp [binInit, entropies_of]
  · intro i hi
    simp only [binInit]
    rw [getD_replicate_lt _ _ hi]
  · intro i hi
    simp only [binInit]
    rw [getD_replicate_lt _ _ hi]
    exact le_max_left _ _
  · intro i hi _
    simp only [binInit]
    rw [getD_replicate_lt _ _ hi]
  · intro e he
    rcases (mem_initQueue H m e).mp he with ⟨i, hi, hcap, rfl⟩
    refine ⟨hi, ?_⟩
    simp only [binInit]
    rw [getD_replicate_lt _ _ hi]
    exact hcap
  · intro e he
    rcases (mem_initQueue H m e).mp he with ⟨i, hi, hcap, rfl⟩
    simp only [binInit]
    rw [getD_replicate_lt _ _ hi]
  · intro i hi
    simp only [binInit]
    rw [getD_replicate_lt _ _ hi]
    unfold entropies_of
    rw [getD_range_map _ hi]
  · exact initQueue_nodup H m
  · exact initQueue_sorted H m

theorem binInv_step (H : List ℚ → Nat → ℚ) (m : List (List ℚ)) (st : BinState)
    (inv : BinInv H m st) : BinInv H m (binStep H m st) := by
  rcases hq : st.queue with _ | ⟨⟨gain, i⟩, rest⟩
  · unfold binStep
    rw [hq]
    exact inv
  · have hmemq : (gain, i) ∈ st.queue := hq ▸ List.mem_cons_self _ _
    have hiW : i < numFeatures m := (inv.queue_lt (gain, i) hmemq).1
    have hlt : st.numBins.getD i 0 < (max_bins_of m).getD i 0 :=
      (inv.queue_lt (gain, i) hmemq).2
    have hgain : gain =
        -(H (matrixColumn m i) (st.numBins.getD i 0 + 1) - st.entropies.getD i 0) :=
      inv.queue_gain (gain, i) hmemq
    have hcoh := inv.entropy_coh i hiW
    have hib : i < st.numBins.length := inv.len_numBins ▸ hiW
    have hie : i < st.entropies.length := inv.len_entropies ▸ hiW
    have hrestne : ∀ e ∈ rest, e.2 ≠ i := by
      intro e he
      have hnd := inv.queue_nodup
      rw [hq] at hnd
      simp only [List.map_cons, List.nodup_cons] at hnd
      intro hcontra
      exact hnd.1 (hcontra ▸ List.mem_map_of_mem Prod.snd he)
    have hrest_sorted : QSorted rest := by
      have := inv.queue_sorted
      rw [hq] at this
      exact this.of_cons
    have hrest_nodup : (rest.map Prod.snd).Nodup := by
      have hnd := inv.queue_nodup
      rw [hq] at hnd
      simp only [List.map_cons, List.nodup_cons] at hnd
      exact hnd.2
    set b := st.numBins.getD i 0 with hb
    have h2b : 2 ≤ b := inv.lower i hiW
    have hnb : (st.numBins.set i (b + 1)).getD i 0 = b + 1 := getD_set_self _ _ _ _ hib
    have hen : (st.entropies.set i (st.entropies.getD i 0 - gain)).getD i 0 =
        st.entropies.getD i 0 - gain := getD_set_self _ _ _ _ hie
    -- the two possible successor states share numBins and entropies
    have hstep : binStep H m st =
        if b + 1 ≠ (max_bins_of m).getD i 0 then
          { numBins := st.numBins.set i (b + 1)
            entropies := st.entropies.set i (st.entropies.getD i 0 - gain)
            queue := qInsert (-(H (matrixColumn m i) (b + 1 + 1) -
              (st.entropies.getD i 0 - gain)), i) rest }
        else
          { numBins := st.numBins.set i (b + 1)
            entropies := st.entropies.set i (st.entropies.getD i 0 - gain)
            queue := rest } := by
      unfold binStep
      rw [hq]
      simp only [hnb, hen]
    have hnewcoh : st.entropies.getD i 0 - gain = H (matrixColumn m i) (b + 1) := by
      rw [hgain, hcoh]
      ring
    rw [hstep]
    have hble : b + 1 ≤ (max_bins_of m).getD i 0 := hlt
    have hlen1 : (st.numBins.set i (b + 1)).length = numFeatures m := by
      rw [List.length_set]; exact inv.len_numBins
    have hlen2 : (st.entropies.set i (st.entropies.getD i 0 - gain)).length =
        numFeatures m := by
      rw [List.length_set]; exact inv.len_entropies
    have hlower : ∀ j, j < numFeatures m →
        2 ≤ (st.numBins.set i (b + 1)).getD j 0 := by
      intro j hj
      rcases eq_or_ne i j with rfl | hne
      · rw [hnb]; exact (inv.lower _ hj).trans (Nat.le_succ _)
      · rw [getD_set_ne _ _ _ hne]; exact inv.lower _ hj
    have hupper : ∀ j, j < numFeatures m →
        (st.numBins.set i (b + 1)).getD j 0 ≤ max 2 ((max_bins_of m).getD j 0) := by
      intro j hj
      rcases eq_or_ne i j with rfl | hne
      · rw [hnb]; exact hble.trans (le_max_right _ _)
      · rw [getD_set_ne _ _ _ hne]; exact inv.upper _ hj
    have hsmall : ∀ j, j < numFeatures m → (max_bins_of m).getD j 0 ≤ 2 →
        (st.numBins.set i (b + 1)).getD j 0 = 2 := by
      intro j hj hcap
      rcases eq_or_ne i j with rfl | hne
      · exact absurd hcap (by omega)
      · rw [getD_set_ne _ _ _ hne]; exact inv.small_fixed _ hj hcap
    have hcoh' : ∀ j, j < numFeatures m →
        (st.entropies.set i (st.entropies.getD i 0 - gain)).getD j 0 =
          H (matrixColumn m j) ((st.numBins.set i (b + 1)).getD j 0) := by
      intro j hj
      rcases eq_or_ne i j with rfl | hne
      · rw [hen, hnb, hnewcoh]
      · rw [getD_set_ne _ _ _ hne, getD_set_ne _ _ _ hne]
        exact inv.entropy_coh _ hj
    have hrest_lt : ∀ e ∈ rest, e.2 < numFeatures m ∧
        (st.numBins.set i (b + 1)).getD e.2 0 < (max_bins_of m).getD e.2 0 := by
      intro e he
      have := inv.queue_lt e (hq ▸ List.mem_cons_of_mem _ he)
      refine ⟨this.1, ?_⟩
      rw [getD_set_ne _ _ _ (fun hcontra => hrestne e he hcontra.symm)]
      exact this.2
    have hrest_gain : ∀ e ∈ rest,
        e.1 = -(H (matrixColumn m e.2) ((st.numBins.set i (b + 1)).getD e.2 0 + 1) -
          (st.entropies.set i (st.entropies.getD i 0 - gain)).getD e.2 0) := by
      intro e he
      have hne : i ≠ e.2 := fun hcontra => hrestne e he hcontra.symm
      rw [getD_set_ne _ _ _ hne, getD_set_ne _ _ _ hne]
      exact inv.queue_gain e (hq ▸ List.mem_cons_of_mem _ he)
    by_cases hcap : b + 1 ≠ (max_bins_of m).getD i 0
    · rw [if_pos hcap]
      have hpush_lt : b + 1 < (max_bins_of m).getD i 0 := by omega
      constructor
      · exact hlen1
      · exact hlen2
      · exact hlower
      · exact hupper
      · exact hsmall
      · intro e he
        rcases mem_qInsert.mp he with rfl | he
        · exact ⟨hiW, by rw [hnb]; exact hpush_lt⟩
        · exact hrest_lt e he
      · intro e he
        rcases mem_qInsert.mp he with rfl | he
        · simp only
          rw [hnb, hen]
        · exact hrest_gain e he
      · exact hcoh'
      · have hperm := (qInsert_perm (-(H (matrixColumn m i) (b + 1 + 1) -
          (st.entropies.getD i 0 - gain)), i) rest).map Prod.snd
        refine hperm.nodup_iff.mpr (List.nodup_cons.mpr ⟨?_, hrest_nodup⟩)
        intro hmem
        rcases List.mem_map.mp hmem with ⟨e, he, hei⟩
        exact hrestne e he hei
      · exact hrest_sorted.qInsert _
    · rw [if_neg hcap]
      constructor
      · exact hlen1
      · exact hlen2
      · exact hlower
      · exact hupper
      · exact hsmall
      · exact hrest_lt
      · exact hrest_gain
      · exact hcoh'
      · exact hrest_nodup
      · exact hrest_sorted

theorem binInv_iterate (H : List ℚ → Nat → ℚ) (m : List (List ℚ)) (n : Nat) :
    BinInv H m ((binStep H m)^[n] (binInit H m)) := by
  induction n with
  | zero => simpa using binInv_init H m
  | succ n ih =>
    rw [Function.iterate_succ_apply']
    exact binInv_step H m _ ih

theorem binStep_numBins_eq (H : List ℚ → Nat → ℚ) (m : List (List ℚ)) (st : BinState)
    (gain : ℚ) (i : Nat) (rest : List (ℚ × Nat)) (hq : st.queue = (gain, i) :: rest) :
    (binStep H m st).numBins = st.numBins.set i (st.numBins.getD i 0 + 1) := by
  unfold binStep
  rw [hq]
  dsimp only
  split <;> rfl

theorem binStep_queue_eq (H : List ℚ → Nat → ℚ) (m : List (List ℚ)) (st : BinState)
    (gain : ℚ) (i : Nat) (rest : List (ℚ × Nat)) (hq : st.queue = (gain, i) :: rest)
    (hib : i < st.numBins.length) (hie : i < st.entropies.length) :
    (binStep H m st).queue =
      if st.numBins.getD i 0 + 1 ≠ (max_bins_of m).getD i 0 then
        qInsert (-(H (matrixColumn m i) (st.numBins.getD i 0 + 1 + 1)
          - (st.entropies.getD i 0 - gain)), i) rest
      else rest := by
  unfold binStep
  rw [hq]
  dsimp only
  rw [getD_set_self _ _ _ _ hib, getD_set_self _ _ _ _ hie]
  split <;> rfl

theorem binStep_numBins_getD_le (H : List ℚ → Nat → ℚ) (m : List (List ℚ))
    (st : BinState) (j : Nat) :
    st.numBins.getD j 0 ≤ (binStep H m st).numBins.getD j 0 := by
  rcases hq : st.queue with _ | ⟨⟨gain, i⟩, rest⟩
  · unfold binStep
    rw [hq]
  · rw [binStep_numBins_eq H m st gain i rest hq]
    rcases eq_or_ne i j with rfl | hne
    · by_cases hlen : i < st.numBins.length
      · rw [getD_set_self _ _ _ _ hlen]
        exact Nat.le_succ _
      · rw [List.getD_eq_default _ _ (Nat.le_of_not_lt hlen),
            List.getD_eq_default _ _
              (by rw [List.length_set]; exact Nat.le_of_not_lt hlen)]
    · rw [getD_set_ne _ _ _ hne]

theorem iterate_numBins_getD_le (H : List ℚ → Nat → ℚ) (m : List (List ℚ)) (j : Nat)
    {n n' : Nat} (h : n ≤ n') :
    ((binStep H m)^[n] (binInit H m)).numBins.getD j 0 ≤
      ((binStep H m)^[n'] (binInit H m)).numBins.getD j 0 := by
  induction n', h using Nat.le_induction with
  | base => exact Nat.le_refl _
  | succ n' hn ih =>
    rw [Function.iterate_succ_apply']
    exact ih.trans (binStep_numBins_getD_le H m _ j)

/-! ### Claims about the bin allocator -/

/-- C4: for every input matrix and every budget, `get_num_bins` returns one
bin count per feature with every count at least 2 and at most
`max 2 (number of distinct raw values of that feature)`; a feature with at
most 2 distinct raw values always keeps exactly 2 bins, and a budget of 0
returns all 2s. -/
theorem examDrop_bin_allocator_bounds (H : List ℚ → Nat → ℚ) (m : List (List ℚ))
    (k : Int) :
    (get_num_bins H m k).length = numFeatures m ∧
    (∀ i, i < numFeatures m →
      2 ≤ (get_num_bins H m k).getD i 0 ∧
      (get_num_bins H m k).getD i 0 ≤ max 2 (distinctCount (matrixColumn m i)) ∧
      (distinctCount (matrixColumn m i) ≤ 2 → (get_num_bins H m k).getD i 0 = 2)) ∧
    get_num_bins H m 0 = List.replicate (numFeatures m) 2 := by
  have inv := binInv_iterate H m k.toNat
  refine ⟨inv.len_numBins, ?_, rfl⟩
  intro i hi
  have hmax : (max_bins_of m).getD i 0 = distinctCount (matrixColumn m i) := by
    unfold max_bins_of
    rw [getD_range_map _ hi]
  refine ⟨inv.lower i hi, ?_, ?_⟩
  · have := inv.upper i hi
    rwa [hmax] at this
  · intro hcap
    exact inv.small_fixed i hi (by rwa [hmax])

/-- Witness for C4 at a concrete matrix (feature 1 of `matrixA` has 3
distinct values) and budget 3. -/
theorem examDrop_bin_allocator_bounds_witness :
    2 ≤ (get_num_bins oracleH matrixA 3).getD 1 0 ∧
    (get_num_bins oracleH matrixA 3).getD 1 0 ≤
      max 2 (distinctCount (matrixColumn matrixA 1)) ∧
    (distinctCount (matrixColumn matrixA 1) ≤ 2 →
      (get_num_bins oracleH matrixA 3).getD 1 0 = 2) :=
  (examDrop_bin_allocator_bounds oracleH matrixA 3).2.1 1 (by decide)

/-- C5: the bin allocator is monotone in its budget — every feature's count
under the larger budget dominates its count under the smaller one — and the
total of all allocated bins never falls below `2 * numFeatures`. -/
theorem examDrop_bin_allocator_monotone (H : List ℚ → Nat → ℚ) (m : List (List ℚ))
    (k k' : Int) (hkk : k ≤ k') :
    (∀ j, (get_num_bins H m k).getD j 0 ≤ (get_num_bins H m k').getD j 0) ∧
    2 * numFeatures m ≤ (get_num_bins H m k).sum := by
  constructor
  · intro j
    exact iterate_numBins_getD_le H m j (Int.toNat_le_toNat hkk)
  · have inv := binInv_iterate H m k.toNat
    have hlen : (get_num_bins H m k).length = numFeatures m := inv.len_numBins
    rw [← hlen]
    apply two_mul_length_le_sum
    intro x hx
    rcases List.mem_iff_get.mp hx with ⟨⟨i, hil⟩, hxi⟩
    have hiW : i < numFeatures m := inv.len_numBins ▸ hil
    have h2 : 2 ≤ (get_num_bins H m k).getD i 0 := inv.lower i hiW
    rw [List.getD_eq_getElem _ _ hil] at h2
    rw [List.get_eq_getElem] at hxi
    rw [hxi] at h2
    exact h2

/-- Witness for C5 at concrete budgets 1 ≤ 3 on `matrixA`. -/
theorem examDrop_bin_allocator_monotone_witness :
    (∀ j, (get_num_bins oracleH matrixA 1).getD j 0 ≤
      (get_num_bins oracleH matrixA 3).getD j 0) ∧
    2 * numFeatures matrixA ≤ (get_num_bins oracleH matrixA 1).sum :=
  examDrop_bin_allocator_monotone oracleH matrixA 1 3 (by decide)

/-- C2: the allocator is the `maxAdditionalBins`-fold iteration of a step
that stops when the queue is empty; the queue starts sorted and stays
sorted in the lexicographic `(gain, feature)` order, so the popped head is
the best-gain entry with ties broken by feature order; in every reachable
state a queued gain is the negated difference between the feature's entropy
at its incremented bin count and at its current bin count, and the queued
feature is strictly below its distinct-value cap; each iteration increments
the popped feature's bin count by one and pushes a new gain back exactly
when the new count is still strictly below that cap. -/
theorem examDrop_bin_allocator_step (H : List ℚ → Nat → ℚ) (m : List (List ℚ))
    (k : Int) :
    get_num_bins H m k = ((binStep H m)^[k.toNat] (binInit H m)).numBins ∧
    (∀ st : BinState, st.queue = [] → binStep H m st = st) ∧
    QSorted (binInit H m).queue ∧
    (∀ st : BinState, QSorted st.queue → QSorted (binStep H m st).queue) ∧
    (∀ n : Nat, ∀ e ∈ ((binStep H m)^[n] (binInit H m)).queue,
      e.2 < numFeatures m ∧
      ((binStep H m)^[n] (binInit H m)).numBins.getD e.2 0 <
        distinctCount (matrixColumn m e.2) ∧
      e.1 = -(H (matrixColumn m e.2)
          (((binStep H m)^[n] (binInit H m)).numBins.getD e.2 0 + 1)
        - H (matrixColumn m e.2)
          (((binStep H m)^[n] (binInit H m)).numBins.getD e.2 0))) ∧
    (∀ (st : BinState) (gain : ℚ) (i : Nat) (rest : List (ℚ × Nat)),
      QSorted st.queue → st.queue = (gain, i) :: rest →
      i < st.numBins.length → i < st.entropies.length →
      st.numBins.getD i 0 < (max_bins_of m).getD i 0 →
      (∀ e ∈ rest, qle (gain, i) e) ∧
      (binStep H m st).numBins = st.numBins.set i (st.numBins.getD i 0 + 1) ∧
      (st.numBins.getD i 0 + 1 < (max_bins_of m).getD i 0 →
        (binStep H m st).queue =
          qInsert (-(H (matrixColumn m i) (st.numBins.getD i 0 + 1 + 1)
            - (st.entropies.getD i 0 - gain)), i) rest) ∧
      (st.numBins.getD i 0 + 1 = (max_bins_of m).getD i 0 →
        (binStep H m st).queue = rest)) := by
  refine ⟨rfl, ?_, initQueue_sorted H m, ?_, ?_, ?_⟩
  · intro st h
    unfold binStep
    rw [h]
  · intro st hs
    rcases hq : st.queue with _ | ⟨⟨gain, i⟩, rest⟩
    · unfold binStep
      rw [hq]
      exact hs
    · rw [hq] at hs
      unfold binStep
      rw [hq]
      dsimp only
      split
      · exact QSorted.qInsert hs.of_cons _
      · exact hs.of_cons
  · intro n e he
    have inv := binInv_iterate H m n
    have hiW := (inv.queue_lt e he).1
    have hmax : (max_bins_of m).getD e.2 0 = distinctCount (matrixColumn m e.2) := by
      unfold max_bins_of
      rw [getD_range_map _ hiW]
    refine ⟨hiW, by rw [← hmax]; exact (inv.queue_lt e he).2, ?_⟩
    rw [inv.queue_gain e he, inv.entropy_coh e.2 hiW]
  · intro st gain i rest hs hq hib hie hlt
    rw [hq] at hs
    refine ⟨fun e he => List.rel_of_sorted_cons hs e he, binStep_numBins_eq H m st gain i rest hq, ?_, ?_⟩
    · intro hpush
      rw [binStep_queue_eq H m st gain i rest hq hib hie, if_pos (by omega)]
    · intro hsat
      rw [binStep_queue_eq H m st gain i rest hq hib hie, if_neg (by omega)]

/-- Witness for C2 at the initial state for `matrixA`, whose queue is
`[(-1, 0), (-1, 1)]` under `oracleH`. -/
theorem examDrop_bin_allocator_step_witness :
    (∀ e ∈ [((-1 : ℚ), 1)], qle (-1, 0) e) ∧
    (binStep oracleH matrixA (binInit oracleH matrixA)).numBins =
      (binInit oracleH matrixA).numBins.set 0
        ((binInit oracleH matrixA).numBins.getD 0 0 + 1) ∧
    ((binInit oracleH matrixA).numBins.getD 0 0 + 1 <
        (max_bins_of matrixA).getD 0 0 →
      (binStep oracleH matrixA (binInit oracleH matrixA)).queue =
        qInsert (-(oracleH (matrixColumn matrixA 0)
            ((binInit oracleH matrixA).numBins.getD 0 0 + 1 + 1)
          - ((binInit oracleH matrixA).entropies.getD 0 0 - (-1))), 0)
          [((-1 : ℚ), 1)]) ∧
    ((binInit oracleH matrixA).numBins.getD 0 0 + 1 =
        (max_bins_of matrixA).getD 0 0 →
      (binStep oracleH matrixA (binInit oracleH matrixA)).queue =
        [((-1 : ℚ), 1)]) :=
  (examDrop_bin_allocator_step oracleH matrixA 0).2.2.2.2.2
    (binInit oracleH matrixA) (-1) 0 [((-1 : ℚ), 1)]
    (initQueue_sorted oracleH matrixA) (by with_unfolding_all rfl)
    (by decide) (by decide) (by decide)

/-! ### Lemmas about the season data expansion -/

theorem mem_expand_answer_fields {s : SeasonData} {seasonNum maxEp : Nat}
    {training : Bool} {a : Answer} {t : TrainSample}
    (ht : t ∈ expand_answer s seasonNum maxEp training a) :
    t.player = a.player ∧ t.season = seasonNum ∧ t.exam_episode = a.episode ∧
      t.question = a.question ∧ t.answer = a.answer := by
  simp only [expand_answer] at ht
  split at ht
  · simp at ht
  · split at ht
    · rcases List.mem_map.mp ht with ⟨q, _, rfl⟩
      exact ⟨rfl, rfl, rfl, rfl, rfl⟩
    · rcases List.mem_cons.mp ht with rfl | ht
      · exact ⟨rfl, rfl, rfl, rfl, rfl⟩
      · rcases List.mem_singleton.mp ht with rfl
        exact ⟨rfl, rfl, rfl, rfl, rfl⟩

theorem expand_answer_eq_nil {s : SeasonData} {seasonNum maxEp : Nat} {a : Answer}
    (training : Bool)
    (h : ((dropEpisodes s maxEp a.player).filter fun e => decide (a.episode ≤ e)) = []) :
    expand_answer s seasonNum maxEp training a = [] := by
  simp [expand_answer, h]

theorem expand_answer_train_eq {s : SeasonData} {seasonNum maxEp : Nat} {a : Answer}
    (h : ((dropEpisodes s maxEp a.player).filter fun e => decide (a.episode ≤ e)) ≠ []) :
    expand_answer s seasonNum maxEp true a =
      (s.episodePlayers a.episode).map (fun q =>
        ⟨a.player, seasonNum,
          listMin ((dropEpisodes s maxEp a.player).filter fun e => decide (a.episode ≤ e)),
          a.episode, a.question, a.answer, Selected.player q⟩) := by
  simp [expand_answer, h]

theorem expand_answer_predict_eq {s : SeasonData} {seasonNum maxEp : Nat} {a : Answer}
    (h : ((dropEpisodes s maxEp a.player).filter fun e => decide (a.episode ≤ e)) ≠ []) :
    expand_answer s seasonNum maxEp false a =
      [⟨a.player, seasonNum,
          listMin ((dropEpisodes s maxEp a.player).filter fun e => decide (a.episode ≤ e)),
          a.episode, a.question, a.answer, Selected.flag false⟩,
       ⟨a.player, seasonNum,
          listMin ((dropEpisodes s maxEp a.player).filter fun e => decide (a.episode ≤ e)),
          a.episode, a.question, a.answer, Selected.flag true⟩] := by
  simp [expand_answer, h]

theorem expand_answer_false_shape (s : SeasonData) (seasonNum maxEp : Nat) (a : Answer) :
    expand_answer s seasonNum maxEp false a = [] ∨
    ∃ t : TrainSample, t.selected_player = Selected.flag false ∧
      expand_answer s seasonNum maxEp false a = [t, withSelected t (Selected.flag true)] := by
  by_cases h : ((dropEpisodes s maxEp a.player).filter fun e => decide (a.episode ≤ e)) = []
  · exact Or.inl (expand_answer_eq_nil false h)
  · right
    refine ⟨⟨a.player, seasonNum,
      listMin ((dropEpisodes s maxEp a.player).filter fun e => decide (a.episode ≤ e)),
      a.episode, a.question, a.answer, Selected.flag false⟩, rfl, ?_⟩
    rw [expand_answer_predict_eq h]
    rfl

theorem flatMap_predict_paired (s : SeasonData) (seasonNum maxEp : Nat) (l : List Answer) :
    2 ∣ (l.flatMap (expand_answer s seasonNum maxEp false)).length ∧
    ∀ j, 2 * j + 1 < (l.flatMap (expand_answer s seasonNum maxEp false)).length →
      ((l.flatMap (expand_answer s seasonNum maxEp false)).getD (2 * j)
        dummySample).selected_player = Selected.flag false ∧
      ((l.flatMap (expand_answer s seasonNum maxEp false)).getD (2 * j + 1)
        dummySample).selected_player = Selected.flag true ∧
      withSelected ((l.flatMap (expand_answer s seasonNum maxEp false)).getD (2 * j)
          dummySample) (Selected.flag true) =
        (l.flatMap (expand_answer s seasonNum maxEp false)).getD (2 * j + 1) dummySample := by
  induction l with
  | nil => simp
  | cons a l ih =>
    rw [List.flatMap_cons]
    rcases expand_answer_false_shape s seasonNum maxEp a with hnil | ⟨t, htsel, hpair⟩
    · rw [hnil]
      simpa using ih
    · rw [hpair]
      simp only [List.cons_append, List.nil_append, List.length_cons]
      constructor
      · obtain ⟨c, hc⟩ := ih.1
        exact ⟨c + 1, by omega⟩
      · intro j hj
        cases j with
        | zero =>
          refine ⟨by simpa using htsel, rfl, rfl⟩
        | succ j =>
          have harith1 : 2 * (j + 1) = 2 * j + 1 + 1 := by ring
          rw [harith1, List.getD_cons_succ, List.getD_cons_succ,
              List.getD_cons_succ, List.getD_cons_succ]
          exact ih.2 j (by omega)

/-- C10: the season-data expansion emits samples only for answers whose
author has a visible removal episode at or after the answer's exam episode;
such an answer yields in train mode one sample per participant present in
the exam episode, identical except for the selected-player slot, and in
predict mode exactly the `False` marker row followed by the `True` marker
row; hence predict data has even length and every even-indexed row is the
excluded marker immediately followed by its included counterpart. -/
theorem examDrop_season_expansion (s : SeasonData) (seasonNum maxEp : Nat) :
    (∀ training : Bool, ∀ t ∈ get_season_data s seasonNum maxEp training,
      ∃ a ∈ s.answers, a.player ∈ dropKeys s maxEp ∧ a.episode ≤ maxEp ∧
        (∃ d ∈ dropEpisodes s maxEp a.player, a.episode ≤ d) ∧
        t.player = a.player ∧ t.exam_episode = a.episode ∧
        t.question = a.question ∧ t.answer = a.answer) ∧
    (∀ a : Answer,
      ((dropEpisodes s maxEp a.player).filter fun e => decide (a.episode ≤ e)) = [] →
      ∀ training : Bool, expand_answer s seasonNum maxEp training a = []) ∧
    (∀ a : Answer,
      ((dropEpisodes s maxEp a.player).filter fun e => decide (a.episode ≤ e)) ≠ [] →
      expand_answer s seasonNum maxEp true a =
        (s.episodePlayers a.episode).map (fun q =>
          ⟨a.player, seasonNum,
            listMin ((dropEpisodes s maxEp a.player).filter fun e => decide (a.episode ≤ e)),
            a.episode, a.question, a.answer, Selected.player q⟩) ∧
      expand_answer s seasonNum maxEp false a =
        [⟨a.player, seasonNum,
            listMin ((dropEpisodes s maxEp a.player).filter fun e => decide (a.episode ≤ e)),
            a.episode, a.question, a.answer, Selected.flag false⟩,
         ⟨a.player, seasonNum,
            listMin ((dropEpisodes s maxEp a.player).filter fun e => decide (a.episode ≤ e)),
            a.episode, a.question, a.answer, Selected.flag true⟩]) ∧
    2 ∣ (get_season_data s seasonNum maxEp false).length ∧
    (∀ j, 2 * j + 1 < (get_season_data s seasonNum maxEp false).length →
      ((get_season_data s seasonNum maxEp false).getD (2 * j)
        dummySample).selected_player = Selected.flag false ∧
      ((get_season_data s seasonNum maxEp false).getD (2 * j + 1)
        dummySample).selected_player = Selected.flag true ∧
      withSelected ((get_season_data s seasonNum maxEp false).getD (2 * j)
          dummySample) (Selected.flag true) =
        (get_season_data s seasonNum maxEp false).getD (2 * j + 1) dummySample) := by
  refine ⟨?_, ?_, ?_, ?_, ?_⟩
  · intro training t ht
    unfold get_season_data get_all_answers at ht
    rcases List.mem_flatMap.mp ht with ⟨a, ha, hta⟩
    rcases List.mem_filter.mp ha with ⟨has, hcond⟩
    obtain ⟨hkey, hep⟩ := of_decide_eq_true hcond
    have hfields := mem_expand_answer_fields hta
    have hde : ((dropEpisodes s maxEp a.player).filter fun e => decide (a.episode ≤ e)) ≠ [] := by
      intro hnil
      rw [expand_answer_eq_nil training hnil] at hta
      simp at hta
    rcases List.exists_mem_of_ne_nil _ hde with ⟨d, hd⟩
    rcases List.mem_filter.mp hd with ⟨hdmem, hdle⟩
    exact ⟨a, has, hkey, hep, ⟨d, hdmem, of_decide_eq_true hdle⟩,
      hfields.1, hfields.2.2.1, hfields.2.2.2.1, hfields.2.2.2.2⟩
  · exact fun a h training => expand_answer_eq_nil training h
  · exact fun a h => ⟨expand_answer_train_eq h, expand_answer_predict_eq h⟩
  · exact (flatMap_predict_paired s seasonNum maxEp _).1
  · exact (flatMap_predict_paired s seasonNum maxEp _).2

/-- Witness for C10: the second predict pair of `seasonB` (rows 2 and 3). -/
theorem examDrop_season_expansion_witness :
    ((get_season_data seasonB 22 2 false).getD (2 * 1)
      dummySample).selected_player = Selected.flag false ∧
    ((get_season_data seasonB 22 2 false).getD (2 * 1 + 1)
      dummySample).selected_player = Selected.flag true ∧
    withSelected ((get_season_data seasonB 22 2 false).getD (2 * 1)
        dummySample) (Selected.flag true) =
      (get_season_data seasonB 22 2 false).getD (2 * 1 + 1) dummySample :=
  (examDrop_season_expansion seasonB 22 2).2.2.2.2 1 (by decide)

/-! ### Lemmas about the sample weighter -/

theorem sum_map_const {α : Type _} (l : List α) (c : ℚ) :
    (l.map (fun _ => c)).sum = l.length * c := by
  induction l with
  | nil => simp
  | cons x xs ih =>
    simp only [List.map_cons, List.sum_cons, List.length_cons, ih]
    push_cast
    ring

theorem expand_answer_pair_filter_ne {s : SeasonData} {seasonNum maxEp : Nat}
    {training : Bool} {a : Answer} {p ep : Nat} (hne : ¬(a.player = p ∧ a.episode = ep)) :
    (expand_answer s seasonNum maxEp training a).filter
      (fun t => decide (t.player = p ∧ t.exam_episode = ep)) = [] := by
  rw [List.filter_eq_nil_iff]
  intro t ht
  have hfields := mem_expand_answer_fields ht
  simp only [decide_eq_true_eq]
  rw [hfields.1, hfields.2.2.1]
  exact hne

theorem expand_answer_pair_weight_sum {s : SeasonData} {seasonNum maxEp : Nat}
    (training : Bool) {a : Answer} {p ep : Nat} (ha : a.player = p) (he : a.episode = ep)
    (hdrop : ((dropEpisodes s maxEp p).filter fun e => decide (ep ≤ e)) ≠ []) :
    (((expand_answer s seasonNum maxEp training a).filter
        (fun t => decide (t.player = p ∧ t.exam_episode = ep))).map (sample_weight s)).sum
      = (if training then ((s.episodePlayers ep).length : ℚ) else 2) *
          (1 / ((episode_answers s ep p).length : ℚ)) := by
  subst ha
  subst he
  cases training with
  | true =>
    rw [expand_answer_train_eq hdrop]
    rw [List.filter_eq_self.mpr ?_]
    · rw [List.map_map]
      have : (sample_weight s ∘ fun q =>
          (⟨a.player, seasonNum,
            listMin ((dropEpisodes s maxEp a.player).filter fun e => decide (a.episode ≤ e)),
            a.episode, a.question, a.answer, Selected.player q⟩ : TrainSample)) =
          fun _ => 1 / ((episode_answers s a.episode a.player).length : ℚ) := rfl
      rw [this, sum_map_const, if_pos rfl]
    · intro t ht
      rcases List.mem_map.mp ht with ⟨q, _, rfl⟩
      simp
  | false =>
    rw [expand_answer_predict_eq hdrop]
    rw [List.filter_eq_self.mpr ?_]
    · simp only [List.map_cons, List.map_nil, List.sum_cons, List.sum_nil,
        Bool.false_eq_true, if_false]
      show (1 : ℚ) / _ + (1 / _ + 0) = 2 * (1 / _)
      ring
    · intro t ht
      rcases List.mem_cons.mp ht with rfl | ht
      · simp
      · rcases List.mem_singleton.mp ht with rfl
        simp

theorem weightSum_flatMap (s : SeasonData) (seasonNum maxEp : Nat) (training : Bool)
    (p ep : Nat) (hep : ep ≤ maxEp) (hkey : p ∈ dropKeys s maxEp)
    (hdrop : ((dropEpisodes s maxEp p).filter fun e => decide (ep ≤ e)) ≠ [])
    (l : List Answer) :
    ((((l.filter (fun a => decide (a.player ∈ dropKeys s maxEp ∧ a.episode ≤ maxEp))).flatMap
        (expand_answer s seasonNum maxEp training)).filter
          (fun t => decide (t.player = p ∧ t.exam_episode = ep))).map (sample_weight s)).sum
      = (l.countP (fun a => decide (a.player = p ∧ a.episode = ep)) : ℚ) *
          ((if training then ((s.episodePlayers ep).length : ℚ) else 2) *
            (1 / ((episode_answers s ep p).length : ℚ))) := by
  induction l with
  | nil => simp
  | cons a l ih =>
    rw [List.filter_cons, List.countP_cons]
    by_cases hpa : a.player = p ∧ a.episode = ep
    · have hFa : decide (a.player ∈ dropKeys s maxEp ∧ a.episode ≤ maxEp) = true := by
        rw [decide_eq_true_eq]
        exact ⟨hpa.1 ▸ hkey, hpa.2 ▸ hep⟩
      rw [hFa]
      simp only [if_true]
      rw [List.flatMap_cons, List.filter_append, List.map_append, List.sum_append]
      rw [expand_answer_pair_weight_sum training hpa.1 hpa.2 hdrop, ih]
      rw [decide_eq_true hpa]
      simp only [if_true]
      push_cast
      ring
    · have hpaD : decide (a.player = p ∧ a.episode = ep) = false := decide_eq_false hpa
      rw [hpaD]
      simp only [Bool.false_eq_true, if_false, Nat.add_zero]
      by_cases hFa : decide (a.player ∈ dropKeys s maxEp ∧ a.episode ≤ maxEp) = true
      · rw [hFa]
        simp only [if_true]
        rw [List.flatMap_cons, List.filter_append, List.map_append, List.sum_append]
        rw [expand_answer_pair_filter_ne hpa]
        simpa using ih
      · rw [Bool.not_eq_true] at hFa
        rw [hFa]
        simpa using ih

/-- C1 counterexample: in `seasonA`, participant 0 gave a single answer in
episode 1 while two participants were present in that episode, so the train
samples of the pair (participant 0, episode 1) carry total weight 2, not
1.0. -/
theorem examDrop_weight_sum_pair_counterexample :
    weightSumPair seasonA (get_season_data seasonA 0 sysMaxsize true) 0 1 = 2 ∧
    weightSumPair seasonA (get_season_data seasonA 0 sysMaxsize true) 0 1 ≠ 1 := by
  have h : weightSumPair seasonA (get_season_data seasonA 0 sysMaxsize true) 0 1 = 2 := by
    with_unfolding_all rfl
  refine ⟨h, ?_⟩
  rw [h]
  norm_num

/-- C1 amended: for a participant-episode pair with a visible exam episode,
a visible qualifying drop and at least one recorded answer, the expanded
samples of that pair carry total weight equal to the number of expansion
copies per answer — the number of participants present in the exam episode
in train mode, 2 in predict mode — rather than 1.0; equivalently each
underlying answer (one sample per answer) contributes exactly weight
1/num_answers. -/
theorem examDrop_weight_sum_pair (s : SeasonData) (seasonNum maxEp : Nat)
    (training : Bool) (p ep : Nat) (hep : ep ≤ maxEp) (hkey : p ∈ dropKeys s maxEp)
    (hdrop : ((dropEpisodes s maxEp p).filter fun e => decide (ep ≤ e)) ≠ [])
    (hans : (episode_answers s ep p).length ≠ 0) :
    weightSumPair s (get_season_data s seasonNum maxEp training) p ep =
      (if training then ((s.episodePlayers ep).length : ℚ) else 2) := by
  unfold weightSumPair get_season_data get_all_answers
  rw [weightSum_flatMap s seasonNum maxEp training p ep hep hkey hdrop s.answers]
  have hcount : s.answers.countP (fun a => decide (a.player = p ∧ a.episode = ep)) =
      (episode_answers s ep p).length := by
    unfold episode_answers
    rw [List.countP_eq_length_filter]
  rw [hcount]
  have hk : ((episode_answers s ep p).length : ℚ) ≠ 0 := Nat.cast_ne_zero.mpr hans
  field_simp
  split <;> ring

/-- Witness for the amended C1 at `seasonA`: the pair (0, 1) sums to the
number of participants of episode 1. -/
theorem examDrop_weight_sum_pair_witness :
    weightSumPair seasonA (get_season_data seasonA 0 sysMaxsize true) 0 1 =
      (if true then ((seasonA.episodePlayers 1).length : ℚ) else 2) :=
  examDrop_weight_sum_pair seasonA 0 sysMaxsize true 0 1 (by decide) (by decide)
    (by decide) (by decide)

/-! ### The interaction augmenter -/

/-- C6: on rows of width `W`, every augmented row has width `2 W + 1` and is
the original row followed by `answered_on` times each original value and a
trailing `answered_on` entry, whose value is always 0 or 1 and equals 1
exactly when the row's selected slot is the boolean `True` or a concrete
participant contained in the row's recorded answer set. -/
theorem examDrop_answered_on_feature (samples : List TrainSample) (m : List (List ℚ))
    (W : Nat) (hW : ∀ r ∈ m, r.length = W) :
    ∀ out ∈ add_answered_on_feature samples m,
      ∃ pr ∈ samples.zip m,
        out = pr.2 ++ pr.2.map (fun x => answered_on pr.1 * x) ++ [answered_on pr.1] ∧
        out.length = 2 * W + 1 ∧
        out.getD (2 * W) 0 = answered_on pr.1 ∧
        (answered_on pr.1 = 0 ∨ answered_on pr.1 = 1) ∧
        (answered_on pr.1 = 1 ↔ pr.1.selected_player = Selected.flag true ∨
          ∃ q, pr.1.selected_player = Selected.player q ∧ q ∈ pr.1.answer) := by
  intro out hout
  rcases List.mem_map.mp hout with ⟨pr, hpr, rfl⟩
  obtain ⟨t, row⟩ := pr
  have hr : row.length = W := hW row (List.of_mem_zip hpr).2
  refine ⟨(t, row), hpr, rfl, ?_, ?_, ?_, ?_⟩
  · simp only [List.length_append, List.length_map, List.length_cons,
      List.length_nil, hr]
    omega
  · have hlen : (row ++ row.map (fun x => answered_on t * x)).length = W + W := by
      simp [hr]
    rw [List.getD_append_right _ _ _ _ (by rw [hlen]; omega), hlen]
    have h0 : 2 * W - (W + W) = 0 := by omega
    rw [h0]
    rfl
  · cases hsel : t.selected_player with
    | player q => by_cases hq : q ∈ t.answer <;> simp [answered_on, hsel, hq]
    | flag b => cases b <;> simp [answered_on, hsel]
  · cases hsel : t.selected_player with
    | player q => by_cases hq : q ∈ t.answer <;> simp [answered_on, hsel, hq]
    | flag b => cases b <;> simp [answered_on, hsel]

/-- Witness for C6 at one concrete sample and row. -/
theorem examDrop_answered_on_feature_witness :
    ∃ pr ∈ [sampleC].zip [rowC],
      rowC ++ rowC.map (fun x => answered_on sampleC * x) ++ [answered_on sampleC] =
        pr.2 ++ pr.2.map (fun x => answered_on pr.1 * x) ++ [answered_on pr.1] ∧
      (rowC ++ rowC.map (fun x => answered_on sampleC * x) ++
        [answered_on sampleC]).length = 2 * 2 + 1 ∧
      (rowC ++ rowC.map (fun x => answered_on sampleC * x) ++
        [answered_on sampleC]).getD (2 * 2) 0 = answered_on pr.1 ∧
      (answered_on pr.1 = 0 ∨ answered_on pr.1 = 1) ∧
      (answered_on pr.1 = 1 ↔ pr.1.selected_player = Selected.flag true ∨
        ∃ q, pr.1.selected_player = Selected.player q ∧ q ∈ pr.1.answer) :=
  examDrop_answered_on_feature [sampleC] [rowC] 2
    (by intro r hr; rcases List.mem_singleton.mp hr with rfl; rfl)
    (rowC ++ rowC.map (fun x => answered_on sampleC * x) ++ [answered_on sampleC])
    (List.mem_singleton.mpr rfl)

/-! ### The predict entry point -/

/-- C9: when the gathered raw observations for the requested season and
cutoff are empty, `get_predict_data` returns the empty list and raises no
error — regardless of whether training has run. -/
theorem examDrop_predict_empty (env : DataEnv) (ex : Extractor)
    (h : get_all_answers (env.seasons ex.predict_season)
      (dropKeys (env.seasons ex.predict_season) ex.predict_episode)
      ex.predict_episode = []) :
    get_predict_data env ex = Except.ok [] := by
  have hsd : get_season_data (env.seasons ex.predict_season) ex.predict_season
      ex.predict_episode false = [] := by
    unfold get_season_data
    rw [h]
    rfl
  unfold get_predict_data
  simp only [hsd, List.isEmpty_nil, if_true]

/-- Witness for C9: a season with no raw observations yields `ok []`, even
before any training call. -/
theorem examDrop_predict_empty_witness :
    get_predict_data envEmpty extractorNoFitB = Except.ok [] :=
  examDrop_predict_empty envEmpty extractorNoFitB (by decide)

/-- C7 counterexample: a predict call before any training call that does
not raise — with no raw observations the call returns `ok []` even though
the fitted state is absent, so not every pre-training predict invocation
raises a sequencing error. -/
theorem examDrop_predict_before_fit_counterexample :
    extractorNoFitB.fitted = none ∧
    get_predict_data envEmpty extractorNoFitB = Except.ok [] :=
  ⟨rfl, by with_unfolding_all rfl⟩

/-- C7 amended: a predict call before any training call raises the
sequencing `AttributeError` exactly when the gathered predict data is
nonempty; with no raw observations it returns `[]` without error.  In both
cases the extractor state is untouched — `get_predict_data` performs no
assignment, which the embedding reflects by returning only the result. -/
theorem examDrop_predict_before_fit (env : DataEnv) (ex : Extractor)
    (hfit : ex.fitted = none) :
    (get_season_data (env.seasons ex.predict_season) ex.predict_season
        ex.predict_episode false ≠ [] →
      get_predict_data env ex = Except.error PyError.attributeError) ∧
    (get_season_data (env.seasons ex.predict_season) ex.predict_season
        ex.predict_episode false = [] →
      get_predict_data env ex = Except.ok []) := by
  constructor
  · intro hne
    have hie : (get_season_data (env.seasons ex.predict_season) ex.predict_season
        ex.predict_episode false).isEmpty = false := by
      rcases hq : get_season_data (env.seasons ex.predict_season) ex.predict_season
        ex.predict_episode false with _ | ⟨t, l⟩
      · exact absurd hq hne
      · rfl
    unfold get_predict_data
    simp only [hie, Bool.false_eq_true, if_false, hfit]
  · intro hnil
    unfold get_predict_data
    simp only [hnil, List.isEmpty_nil, if_true]

/-- Witness for the amended C7: with raw observations present and no fitted
state, predict raises the sequencing error. -/
theorem examDrop_predict_before_fit_witness :
    get_predict_data envB extractorNoFitB = Except.error PyError.attributeError :=
  (examDrop_predict_before_fit envB extractorNoFitB rfl).1 (by decide)

/-- C8 counterexample: constructing the extractor with a significance
threshold of -1 (outside (0,1)), a variance-retention fraction of 2
(outside (0,1]) and a bin budget of -5 (negative) raises nothing — the
constructor returns the stored configuration. -/
theorem examDrop_init_no_validation_counterexample :
    extractor_init 22 6 [5, 6] (-1) 2 (-5) =
      Except.ok ⟨22, 6, [5, 6], -1, 2, -5, none⟩ ∧
    extractor_init 22 6 [5, 6] (-1) 2 (-5) ≠
      Except.error PyError.attributeError :=
  ⟨rfl, fun h => Except.noConfusion h⟩

/-- C8 amended: `__init__` performs no validation — for every configuration,
valid or not, construction succeeds and stores the six arguments unchanged,
with no fitted state; invalid values can only surface later. -/
theorem examDrop_init_stores_config (ps pe : Nat) (ts : List Nat) (af pc : ℚ)
    (ms : Int) :
    extractor_init ps pe ts af pc ms = Except.ok ⟨ps, pe, ts, af, pc, ms, none⟩ :=
  rfl

/-- C3: evaluation at the failing input.  In `seasonB` the predict rows are
the pairs of three answers with per-row weights `[1, 1, 1/2, 1/2, 1/2,
1/2]`; `get_predict_data` zips the unsliced weight list against the
half-length row slices, so the produced samples carry weights `[1, 1, 1/2]`
— but the second sample is built from raw rows 2 and 3, whose
participant-episode answer count gives weight 1/2, not 1. -/
theorem examDrop_predict_weight_bug :
    ((get_predict_data envB extractorB).toOption.getD []).map (fun pr => pr.weight) =
      [1, 1, 1 / 2] ∧
    sample_weight seasonB ((get_season_data seasonB 22 2 false).getD (2 * 1)
      dummySample) = 1 / 2 ∧
    (1 : ℚ) ≠ 1 / 2 := by
  refine ⟨by with_unfolding_all rfl, by with_unfolding_all rfl, by norm_num⟩

end ExamDrop
